import Mathlib

/-!
Shallow embedding of `pysloc.py`, a Python SLOC counter, together with
proofs about its line classifier, ignore matcher, tree walker and
aggregator.  Paths are modelled as POSIX path strings, and the relevant
behaviour of `os.path`, `fnmatch` and `os.walk` is embedded explicitly;
string operations are carried out on the underlying character lists.
-/

/-- Whitespace test used by Python `str.strip()`, restricted to the ASCII
whitespace characters (Unicode space characters are not exercised by any
statement below). -/
def isPySpace (c : Char) : Bool :=
  c = ' ' || c = '\t' || c = '\n' || c = '\r' || c = '\x0b' || c = '\x0c'

/-- `str.strip()` on a character list: drop leading and trailing whitespace. -/
def pyStripList (cs : List Char) : List Char :=
  ((cs.dropWhile isPySpace).reverse.dropWhile isPySpace).reverse

/-- `str.strip()` on a string. -/
def pyStrip (s : String) : String := ⟨pyStripList s.data⟩

/-- `str.startswith`. -/
def strStartsWith (s pre : String) : Bool := pre.data.isPrefixOf s.data

/-- `str.endswith`. -/
def strEndsWith (s suf : String) : Bool := suf.data.isSuffixOf s.data

/-- `is_code_line` from `pysloc.py` (lines 61-77): a line counts as code iff
after stripping it is non-empty, does not start with `#`, and the part
before the first `#`, stripped, is non-empty.  Python's
`stripped.split('#', 1)[0]` is exactly the prefix of `stripped` before the
first `#`. -/
def is_code_line (line : String) : Bool :=
  let stripped := pyStrip line
  if stripped.data.isEmpty then false
  else if strStartsWith stripped "#" then false
  else
    let code_part := pyStrip ⟨stripped.data.takeWhile (fun c => c != '#')⟩
    !code_part.data.isEmpty

/-- Claim C1 restated from the spec's words: `is_code_line` is false when
the whitespace-stripped line is empty or its first non-whitespace character
is `#`; otherwise it is true exactly when the portion of the stripped line
before the first `#`, after stripping whitespace, is non-empty. -/
def is_code_line_claim (line : String) : Bool :=
  match pyStripList line.data with
  | [] => false
  | c :: cs =>
    if c = '#' then false
    else !(pyStripList ((c :: cs).takeWhile (fun x => x != '#'))).isEmpty

/-- Claim C1: for every string `line`, `is_code_line line` returns false when
the stripped line is empty or its first non-whitespace character is `#`, and
otherwise returns true exactly when the part of the stripped line before the
first `#`, stripped again, is non-empty (a `#` inside a quoted string still
starts a comment, since the classifier is purely textual). -/
theorem C1_is_code_line_correct (line : String) :
    is_code_line line = is_code_line_claim line := by
  unfold is_code_line is_code_line_claim pyStrip
  cases h : pyStripList line.data with
  | nil => simp [h]
  | cons c cs =>
    simp only [h, List.isEmpty_cons, strStartsWith]
    by_cases hc : c = '#'
    · subst hc
      simp [List.isPrefixOf]
    · simp [List.isPrefixOf, hc, Ne.symm hc]

/-! ## POSIX path functions (`posixpath` as used by `pysloc.py`)

The current working directory is passed explicitly as `cwd` wherever
CPython consults `os.getcwd()`. -/

/-- `posixpath.isabs`: a path is absolute iff it starts with `/`. -/
def isabs (p : String) : Bool := strStartsWith p "/"

/-- Split a character list at every `/` (Python `p.split('/')`).  The
result is always non-empty. -/
def splitSlash : List Char → List (List Char)
  | [] => [[]]
  | '/' :: rest => [] :: splitSlash rest
  | c :: rest =>
    match splitSlash rest with
    | [] => [[c]]
    | g :: gs => (c :: g) :: gs

/-- `posixpath.basename`: everything after the last `/` (CPython uses
`p[p.rfind('/') + 1:]`, which is the last piece of `p.split('/')`). -/
def basename (p : String) : String := ⟨(splitSlash p.data).getLastD []⟩

/-- Two-argument `posixpath.join`: the second path wins if absolute;
otherwise it is appended, inserting `/` unless the first part is empty or
already ends with `/`. -/
def joinPath (a b : String) : String :=
  if isabs b then b
  else if a.data.isEmpty || strEndsWith a "/" then ⟨a.data ++ b.data⟩
  else ⟨a.data ++ '/' :: b.data⟩

/-- `posixpath.normpath`: collapse repeated separators and `.`, resolve
`..` lexically, preserving the special two-leading-slash form. -/
def normpath (p : String) : String :=
  if p.data.isEmpty then "." else
  let initialSlashes : Nat :=
    if strStartsWith p "//" && !(strStartsWith p "///") then 2
    else if strStartsWith p "/" then 1 else 0
  let comps := splitSlash p.data
  let newComps := comps.foldl (fun acc comp =>
    if comp.isEmpty ∨ comp = ['.'] then acc
    else if comp ≠ ['.', '.'] ∨ (initialSlashes = 0 ∧ acc = []) ∨
        acc.getLast? = some ['.', '.'] then acc ++ [comp]
    else acc.dropLast) ([] : List (List Char))
  let res := List.replicate initialSlashes '/' ++ List.intercalate ['/'] newComps
  if res.isEmpty then "." else ⟨res⟩

/-- `posixpath.abspath` relative to an explicit working directory `cwd`:
`normpath(join(cwd, p))`, where the join is skipped for absolute `p`. -/
def abspath (cwd p : String) : String :=
  if isabs p then normpath p else normpath (joinPath cwd p)

/-- Length of the longest common prefix of two component lists
(`genericpath.commonprefix` applied to lists, as `posixpath.relpath`
does). -/
def commonPrefixLen : List (List Char) → List (List Char) → Nat
  | a :: as, b :: bs => if a = b then commonPrefixLen as bs + 1 else 0
  | _, _ => 0

/-- `posixpath.relpath(p, start)` with an explicit `cwd`.  On POSIX the
only `ValueError` is raised for an empty `p`, modelled as `none`. -/
def relpath? (cwd p start : String) : Option String :=
  if p.data.isEmpty then none
  else
    let startList := (splitSlash (abspath cwd start).data).filter (fun x => !x.isEmpty)
    let pathList := (splitSlash (abspath cwd p).data).filter (fun x => !x.isEmpty)
    let i := commonPrefixLen startList pathList
    let relList := List.replicate (startList.length - i) ['.', '.'] ++ pathList.drop i
    if relList.isEmpty then some "." else some ⟨List.intercalate ['/'] relList⟩

/-! ## `fnmatch` glob matching

`fnmatch.fnmatch(name, pat)` on POSIX (`normcase` is the identity) matches
the whole `name` against the glob `pat`: `*` matches any run of
characters, `?` one character, and `[...]` a bracket class (leading `!`
negates; a `]` right after `[` or `[!` is literal; an unterminated `[` is
a literal `[`; a range whose endpoints are reversed matches nothing). -/

/-- Scan for the closing `]` of a bracket class, returning the content
before it and the remainder after it (`none` when unterminated). -/
def findClose : List Char → Option (List Char × List Char)
  | [] => none
  | c :: rest =>
    if c = ']' then some ([], rest)
    else (findClose rest).map (fun pr => (c :: pr.1, pr.2))

/-- Split off a bracket-class body following `[`, per `fnmatch.translate`:
the scan for the closing `]` starts after an optional leading `!` and an
optional immediately-following literal `]`. -/
def splitBracket (s : List Char) : Option (List Char × List Char) :=
  let j1 := if s.head? = some '!' then 1 else 0
  let j2 := if (s.drop j1).head? = some ']' then j1 + 1 else j1
  (findClose (s.drop j2)).map (fun pr => (s.take j2 ++ pr.1, pr.2))

theorem findClose_length {s a b : List Char} (h : findClose s = some (a, b)) :
    b.length < s.length := by
  induction s generalizing a b with
  | nil => simp [findClose] at h
  | cons c rest ih =>
    by_cases hc : c = ']'
    · simp [findClose, hc] at h
      simp [← h.2]
    · simp only [findClose, if_neg hc, Option.map_eq_some'] at h
      obtain ⟨pr, hpr, heq⟩ := h
      obtain ⟨h1, h2⟩ := Prod.mk.injEq .. ▸ heq
      subst h2
      exact Nat.lt_trans (ih (a := pr.1) (b := pr.2) (by simpa using hpr))
        (by simp)

theorem splitBracket_length {s a b : List Char} (h : splitBracket s = some (a, b)) :
    b.length < s.length := by
  unfold splitBracket at h
  simp only [Option.map_eq_some'] at h
  obtain ⟨pr, hpr, heq⟩ := h
  obtain ⟨h1, h2⟩ := Prod.mk.injEq .. ▸ heq
  subst h2
  have h3 := findClose_length (a := pr.1) (b := pr.2) (by simpa using hpr)
  have hd : ∀ j : Nat, (s.drop j).length ≤ s.length := fun j => by simp
  exact Nat.lt_of_lt_of_le h3 (hd _)


/-- Parse a bracket-class body into character ranges: `a-b` (with `-`
neither first nor last) is a range, every other character stands for
itself.  This matches the chunking done by `fnmatch.translate`; a reversed
range matches no character, as CPython's empty-range elimination makes the
corresponding regex class match nothing. -/
def parseItems : List Char → List (Char × Char)
  | a :: '-' :: b :: rest => (a, b) :: parseItems rest
  | a :: rest => (a, a) :: parseItems rest
  | [] => []

/-- Membership of a character in a bracket-class body (a leading `!`
negates; `[!]` matches any character, `[]`-with-no-close never arises
here). -/
def classMatch (content : List Char) (c : Char) : Bool :=
  match content with
  | '!' :: items => !((parseItems items).any fun r => r.1 ≤ c && c ≤ r.2)
  | items => (parseItems items).any fun r => r.1 ≤ c && c ≤ r.2

/-- The glob matcher of `fnmatch` (full match of `name` against `pat`). -/
def globMatch : List Char → List Char → Bool
  | [], name => name.isEmpty
  | '*' :: ps, name =>
    globMatch ps name ||
      (match name with
       | [] => false
       | _ :: ns => globMatch ('*' :: ps) ns)
  | '?' :: ps, name =>
    (match name with
     | [] => false
     | _ :: ns => globMatch ps ns)
  | '[' :: ps, name =>
    (match hsb : splitBracket ps with
     | none =>
       (match name with
        | [] => false
        | n :: ns => ('[' == n) && globMatch ps ns)
     | some (content, rest) =>
       (match name with
        | [] => false
        | n :: ns => classMatch content n && globMatch rest ns))
  | p :: ps, name =>
    (match name with
     | [] => false
     | n :: ns => (p == n) && globMatch ps ns)
termination_by pat name => (pat.length, name.length)
decreasing_by
  all_goals simp_wf
  all_goals
    first
      | exact Prod.Lex.right _ (by omega)
      | exact Prod.Lex.left _ _ (by omega)
      | (exact Prod.Lex.left _ _ (by have := splitBracket_length hsb; omega))

/-- `fnmatch.fnmatch(name, pat)` on POSIX (`normcase` is the identity). -/
def fnmatch (name pat : String) : Bool := globMatch pat.data name.data

/-! ## The ignore matcher (`should_ignore`, `pysloc.py` lines 80-121) -/

/-- The candidate forms tried for one ignore pattern (`pysloc.py` lines
102-111): the pattern itself; for an absolute pattern additionally its form
relative to the absolute root (skipped when `relpath` fails); for a
relative pattern additionally its absolute form joined under the root. -/
def candidateForms (cwd rootAbs pattern : String) : List String :=
  [pattern] ++
    (if isabs pattern then
      match relpath? cwd pattern rootAbs with
      | some r => [r]
      | none => []
    else [abspath cwd (joinPath rootAbs pattern)])

/-- `should_ignore(path, ignore_patterns, root_path, include_hidden)` from
`pysloc.py` lines 80-121.  The `try/except ValueError` around `relpath` is
the `Option.getD` fallback to the absolute path.  The `for`-loop with an
early `return True` is `List.any`. -/
def should_ignore (cwd path : String) (ignore_patterns : List String)
    (root_path : String) (include_hidden : Bool) : Bool :=
  let abs_path := abspath cwd path
  let root_abs := abspath cwd root_path
  let rel := (relpath? cwd abs_path root_abs).getD abs_path
  let name := basename path
  if !include_hidden && strStartsWith name "." then true
  else if ignore_patterns.isEmpty then false
  else ignore_patterns.any fun pattern =>
    (candidateForms cwd root_abs pattern).any fun candidate =>
      fnmatch rel candidate || fnmatch abs_path candidate ||
        fnmatch name candidate

/-- The three comparable forms of a scan entry, and the match test for a
single candidate form against them (spec section 4.2 step 6). -/
def formsMatch (cwd root_abs path candidate : String) : Bool :=
  let abs_path := abspath cwd path
  let rel := (relpath? cwd abs_path root_abs).getD abs_path
  fnmatch rel candidate || fnmatch abs_path candidate ||
    fnmatch (basename path) candidate

/-- Full characterization of `should_ignore`: it returns true exactly when
the hidden rule fires, or some candidate form of some pattern matches one
of the three comparable forms of the path. -/
theorem should_ignore_iff (cwd path : String) (pats : List String)
    (root_path : String) (ih : Bool) :
    should_ignore cwd path pats root_path ih = true ↔
      ((ih = false ∧ strStartsWith (basename path) "." = true) ∨
        ∃ pattern ∈ pats,
          ∃ c ∈ candidateForms cwd (abspath cwd root_path) pattern,
            formsMatch cwd (abspath cwd root_path) path c = true) := by
  unfold should_ignore formsMatch
  by_cases hh : (!ih && strStartsWith (basename path) ".") = true
  · simp only [hh, if_true]
    constructor
    · intro _
      left
      simp only [Bool.and_eq_true, Bool.not_eq_true'] at hh
      exact ⟨hh.1, hh.2⟩
    · intro _; trivial
  · simp only [Bool.not_eq_true] at hh
    simp only [hh, Bool.false_eq_true, if_false]
    have hnot : ¬(ih = false ∧ strStartsWith (basename path) "." = true) := by
      intro ⟨h1, h2⟩
      rw [h1, h2] at hh
      simp at hh
    by_cases hp : pats.isEmpty
    · have : pats = [] := by
        cases pats with
        | nil => rfl
        | cons a l => simp at hp
      subst this
      simp [hnot]
    · simp only [hp, Bool.false_eq_true, if_false]
      rw [List.any_eq_true]
      constructor
      · rintro ⟨pattern, hmem, hc⟩
        rw [List.any_eq_true] at hc
        obtain ⟨c, hcmem, hcm⟩ := hc
        exact Or.inr ⟨pattern, hmem, c, hcmem, hcm⟩
      · rintro (habs | ⟨pattern, hmem, c, hcmem, hcm⟩)
        · exact absurd habs hnot
        · exact ⟨pattern, hmem, List.any_eq_true.mpr ⟨c, hcmem, hcm⟩⟩

/-- Claim C2: for every path not excluded by the hidden rule,
`should_ignore` returns true iff some pattern has a candidate form — the
pattern itself; if absolute, also its form relative to the absolute root
when computable; if relative, also its absolute form joined under the root
— that glob-matches the path relative to the root, the absolute path, or
the basename; with an empty pattern list it returns false. -/
theorem C2_should_ignore_pattern_match (cwd path root_path : String)
    (pats : List String) (ih : Bool)
    (h : ih = true ∨ strStartsWith (basename path) "." = false) :
    should_ignore cwd path pats root_path ih = true ↔
      ∃ pattern ∈ pats,
        ∃ c ∈ candidateForms cwd (abspath cwd root_path) pattern,
          formsMatch cwd (abspath cwd root_path) path c = true := by
  rw [should_ignore_iff]
  constructor
  · rintro (⟨h1, h2⟩ | hex)
    · cases h with
      | inl h3 => rw [h3] at h1; exact absurd h1 (by simp)
      | inr h3 => rw [h3] at h2; exact absurd h2 (by simp)
    · exact hex
  · exact Or.inr

/-- Claim C3: a hidden basename forces exclusion whenever `include_hidden`
is false, regardless of the pattern list; and with `include_hidden` true a
hidden basename alone never causes exclusion — the path is excluded exactly
when some pattern matches it. -/
theorem C3_hidden_rule (cwd path root_path : String) (pats : List String)
    (h : strStartsWith (basename path) "." = true) :
    should_ignore cwd path pats root_path false = true ∧
      (should_ignore cwd path pats root_path true = true ↔
        ∃ pattern ∈ pats,
          ∃ c ∈ candidateForms cwd (abspath cwd root_path) pattern,
            formsMatch cwd (abspath cwd root_path) path c = true) := by
  constructor
  · rw [should_ignore_iff]
    exact Or.inl ⟨rfl, h⟩
  · rw [should_ignore_iff]
    constructor
    · rintro (⟨h1, _⟩ | hex)
      · exact absurd h1 (by simp)
      · exact hex
    · exact Or.inr

/-! ## The tree walker (`iter_python_files`, `pysloc.py` lines 124-157)

The directory tree that the operating system presents to `os.walk` is
modelled explicitly: an entry is a file name or a directory name with its
children.  `os.walk(top)` with the default `topdown=True` yields the
triple for a directory first (the generator body prunes the ignored child
directories in place and yields the matching files) and then walks the
kept child directories in order; on a path that is not a directory
`scandir` fails and `os.walk` yields nothing. -/

inductive Entry where
  | file (name : String) : Entry
  | dir (name : String) (children : List Entry) : Entry

/-- The name of an entry. -/
def entryName : Entry → String
  | .file n => n
  | .dir n _ => n

/-- The files yielded while the walk visits one directory (`pysloc.py`
lines 151-157): a file is yielded when `should_ignore` rejects it not and
its name ends with `.py`, the extension test coming second. -/
def filesAt (cwd : String) (pats : List String) (ih : Bool)
    (rootAbs dirpath : String) (children : List Entry) : List String :=
  children.filterMap fun e =>
    match e with
    | .file n =>
      let full := joinPath dirpath n
      if should_ignore cwd full pats rootAbs ih then none
      else if strEndsWith n ".py" then some full else none
    | .dir _ _ => none

/-- The files yielded below the child directories of one directory: each
child directory is pruned once, before descent (`pysloc.py` lines
141-149), and a kept child contributes its own files followed by its
subtree's. -/
def walkSubdirs (cwd : String) (pats : List String) (ih : Bool)
    (rootAbs : String) : String → List Entry → List String
  | _, [] => []
  | dirpath, .file _ :: rest => walkSubdirs cwd pats ih rootAbs dirpath rest
  | dirpath, .dir n sub :: rest =>
    (if should_ignore cwd (joinPath dirpath n) pats rootAbs ih then []
     else
       filesAt cwd pats ih rootAbs (joinPath dirpath n) sub ++
         walkSubdirs cwd pats ih rootAbs (joinPath dirpath n) sub) ++
      walkSubdirs cwd pats ih rootAbs dirpath rest
termination_by _ l => sizeOf l
decreasing_by
  all_goals simp_wf
  all_goals omega

/-- `iter_python_files(root_path, ignore_patterns, include_hidden)` from
`pysloc.py` lines 124-157.  `fsRoot` is what the filesystem holds at
`abspath(root_path)`: `none` (nothing), a file, or a directory; `os.walk`
yields nothing in the first two cases.  `ignore_patterns or []` is
modelled by passing the list directly. -/
def iter_python_files (cwd : String) (fsRoot : Option Entry)
    (root_path : String) (ignore_patterns : List String)
    (include_hidden : Bool) : List String :=
  let rootAbs := abspath cwd root_path
  match fsRoot with
  | some (.dir _ children) =>
    filesAt cwd ignore_patterns include_hidden rootAbs rootAbs children ++
      walkSubdirs cwd ignore_patterns include_hidden rootAbs rootAbs children
  | _ => []

/-- Membership in the file yields of one directory visit. -/
theorem mem_filesAt {cwd : String} {pats : List String} {ih : Bool}
    {rootAbs dirpath p : String} {children : List Entry} :
    p ∈ filesAt cwd pats ih rootAbs dirpath children ↔
      ∃ n, Entry.file n ∈ children ∧
        should_ignore cwd (joinPath dirpath n) pats rootAbs ih = false ∧
        strEndsWith n ".py" = true ∧ p = joinPath dirpath n := by
  unfold filesAt
  rw [List.mem_filterMap]
  constructor
  · rintro ⟨e, hmem, hsome⟩
    cases e with
    | file n =>
      simp only at hsome
      by_cases hig : should_ignore cwd (joinPath dirpath n) pats rootAbs ih
      · simp [hig] at hsome
      · by_cases hpy : strEndsWith n ".py"
        · refine ⟨n, hmem, by simp [hig], hpy, ?_⟩
          simp [hig, hpy] at hsome
          exact hsome.symm
        · simp [hig, hpy] at hsome
    | dir n sub => simp at hsome
  · rintro ⟨n, hmem, hig, hpy, hp⟩
    exact ⟨Entry.file n, hmem, by simp [hig, hpy, hp]⟩

/-- Membership in the yields below the child directories of one visit. -/
theorem mem_walkSubdirs {cwd : String} {pats : List String} {ih : Bool}
    {rootAbs : String} :
    ∀ {dirpath p : String} {l : List Entry},
      p ∈ walkSubdirs cwd pats ih rootAbs dirpath l ↔
        ∃ n sub, Entry.dir n sub ∈ l ∧
          should_ignore cwd (joinPath dirpath n) pats rootAbs ih = false ∧
          (p ∈ filesAt cwd pats ih rootAbs (joinPath dirpath n) sub ∨
            p ∈ walkSubdirs cwd pats ih rootAbs (joinPath dirpath n) sub) := by
  intro dirpath p l
  induction l with
  | nil => simp [walkSubdirs]
  | cons e rest iha =>
    cases e with
    | file n =>
      rw [walkSubdirs, iha]
      constructor
      · rintro ⟨m, sub, hmem, h⟩
        exact ⟨m, sub, List.mem_cons_of_mem _ hmem, h⟩
      · rintro ⟨m, sub, hmem, h⟩
        rcases List.mem_cons.mp hmem with heq | hmem'
        · exact absurd heq (by simp)
        · exact ⟨m, sub, hmem', h⟩
    | dir n sub =>
      rw [walkSubdirs]
      by_cases hig : should_ignore cwd (joinPath dirpath n) pats rootAbs ih = true
      · rw [if_pos hig, List.nil_append, iha]
        constructor
        · rintro ⟨m, msub, hmem, hig', hor⟩
          exact ⟨m, msub, List.mem_cons_of_mem _ hmem, hig', hor⟩
        · rintro ⟨m, msub, hmem, hig', hor⟩
          rcases List.mem_cons.mp hmem with heq | hmem'
          · rw [Entry.dir.injEq] at heq
            obtain ⟨h1, h2⟩ := heq
            subst h1; subst h2
            rw [hig] at hig'
            exact Bool.noConfusion hig'
          · exact ⟨m, msub, hmem', hig', hor⟩
      · rw [if_neg hig, List.append_assoc]
        have higf : should_ignore cwd (joinPath dirpath n) pats rootAbs ih = false :=
          Bool.not_eq_true _ ▸ hig
        rw [List.mem_append, List.mem_append, iha]
        constructor
        · rintro (hf | hw | ⟨m, msub, hmem, hig', hor⟩)
          · exact ⟨n, sub, List.mem_cons_self .., higf, Or.inl hf⟩
          · exact ⟨n, sub, List.mem_cons_self .., higf, Or.inr hw⟩
          · exact ⟨m, msub, List.mem_cons_of_mem _ hmem, hig', hor⟩
        · rintro ⟨m, msub, hmem, hig', hor⟩
          rcases List.mem_cons.mp hmem with heq | hmem'
          · rw [Entry.dir.injEq] at heq
            obtain ⟨h1, h2⟩ := heq
            subst h1; subst h2
            rcases hor with hf | hw
            · exact Or.inl hf
            · exact Or.inr (Or.inl hw)
          · exact Or.inr (Or.inr ⟨m, msub, hmem', hig', hor⟩)

/-- The specification of what the walker yields (claim C4): a file is
yielded exactly when it is reachable from the root through a chain of
directories none of which `should_ignore` rejects, is itself not rejected,
and carries the `.py` suffix; the yielded string is the join of the names
along the chain under the root. -/
inductive YieldSpec (cwd : String) (pats : List String) (ih : Bool)
    (rootAbs : String) : String → List Entry → String → Prop where
  | here {dirpath : String} {children : List Entry} {fname : String} :
      Entry.file fname ∈ children →
      should_ignore cwd (joinPath dirpath fname) pats rootAbs ih = false →
      strEndsWith fname ".py" = true →
      YieldSpec cwd pats ih rootAbs dirpath children (joinPath dirpath fname)
  | deeper {dirpath : String} {children : List Entry} {dname : String}
      {sub : List Entry} {p : String} :
      Entry.dir dname sub ∈ children →
      should_ignore cwd (joinPath dirpath dname) pats rootAbs ih = false →
      YieldSpec cwd pats ih rootAbs (joinPath dirpath dname) sub p →
      YieldSpec cwd pats ih rootAbs dirpath children p

theorem yieldSpec_mem {cwd : String} {pats : List String} {ih : Bool}
    {rootAbs dirpath p : String} {l : List Entry}
    (h : YieldSpec cwd pats ih rootAbs dirpath l p) :
    p ∈ filesAt cwd pats ih rootAbs dirpath l ∨
      p ∈ walkSubdirs cwd pats ih rootAbs dirpath l := by
  induction h with
  | here hmem hig hpy => exact Or.inl (mem_filesAt.mpr ⟨_, hmem, hig, hpy, rfl⟩)
  | deeper hmem hig _ ihsub =>
    exact Or.inr (mem_walkSubdirs.mpr ⟨_, _, hmem, hig, ihsub⟩)

theorem mem_yieldSpec {cwd : String} {pats : List String} {ih : Bool}
    {rootAbs : String} :
    ∀ (k : Nat) (l : List Entry), sizeOf l ≤ k → ∀ (dirpath p : String),
      (p ∈ filesAt cwd pats ih rootAbs dirpath l ∨
        p ∈ walkSubdirs cwd pats ih rootAbs dirpath l) →
      YieldSpec cwd pats ih rootAbs dirpath l p := by
  intro k
  induction k with
  | zero =>
    intro l hl
    exact absurd hl (by cases l <;> simp)
  | succ k ihk =>
    intro l hl dirpath p hor
    rcases hor with hf | hw
    · obtain ⟨n, hmem, hig, hpy, hp⟩ := mem_filesAt.mp hf
      exact hp ▸ YieldSpec.here hmem hig hpy
    · obtain ⟨m, msub, hmem, hig, hor'⟩ := mem_walkSubdirs.mp hw
      have h1 := List.sizeOf_lt_of_mem hmem
      have h2 : sizeOf msub ≤ k := by
        have : sizeOf (Entry.dir m msub) = 1 + sizeOf m + sizeOf msub := by simp
        omega
      exact YieldSpec.deeper hmem hig (ihk msub h2 (joinPath dirpath m) p hor')

/-- The walker's output characterized: membership in one directory visit's
total yields is exactly `YieldSpec`. -/
theorem walk_mem {cwd : String} {pats : List String} {ih : Bool}
    {rootAbs dirpath p : String} {l : List Entry} :
    (p ∈ filesAt cwd pats ih rootAbs dirpath l ∨
      p ∈ walkSubdirs cwd pats ih rootAbs dirpath l) ↔
      YieldSpec cwd pats ih rootAbs dirpath l p :=
  ⟨mem_yieldSpec (sizeOf l) l (Nat.le_refl _) dirpath p, yieldSpec_mem⟩

/-! ## Uniqueness of the yielded paths

On a real filesystem the names inside one directory are non-empty, contain
no `/`, and are pairwise distinct; under that well-formedness each path is
yielded at most once. -/

/-- A well-formed filesystem name: non-empty and free of `/`. -/
def validName (n : String) : Prop := n.data ≠ [] ∧ '/' ∉ n.data

/-- Well-formed directory contents: sibling names distinct and valid, and
recursively so. -/
inductive Wf : List Entry → Prop where
  | mk (l : List Entry) :
      (l.map entryName).Nodup →
      (∀ e ∈ l, validName (entryName e)) →
      (∀ dname sub, Entry.dir dname sub ∈ l → Wf sub) →
      Wf l

theorem Wf.names_nodup {l : List Entry} (h : Wf l) : (l.map entryName).Nodup := by
  cases h with | mk _ h1 _ _ => exact h1

theorem Wf.valid {l : List Entry} (h : Wf l) : ∀ e ∈ l, validName (entryName e) := by
  cases h with | mk _ _ h2 _ => exact h2

theorem Wf.sub {l : List Entry} (h : Wf l) :
    ∀ dname sub, Entry.dir dname sub ∈ l → Wf sub := by
  cases h with | mk _ _ _ h3 => exact h3

theorem Wf.tail {e : Entry} {l : List Entry} (h : Wf (e :: l)) : Wf l := by
  cases h with
  | mk _ h1 h2 h3 =>
    exact Wf.mk l (by simpa using h1.of_cons)
      (fun x hx => h2 x (List.mem_cons_of_mem _ hx))
      (fun dname sub hx => h3 dname sub (List.mem_cons_of_mem _ hx))

/-- The separator that `joinPath` inserts after a given left part. -/
def sepOf (d : String) : List Char :=
  if d.data.isEmpty || strEndsWith d "/" then [] else ['/']

theorem joinPath_data {d n : String} (hn : validName n) :
    (joinPath d n).data = d.data ++ sepOf d ++ n.data := by
  obtain ⟨hne, hns⟩ := hn
  have habs : isabs n = false := by
    unfold isabs strStartsWith
    cases hd : n.data with
    | nil => exact absurd hd hne
    | cons c cs =>
      have hc : c ≠ '/' := by
        intro hc'
        exact hns (hd ▸ hc' ▸ List.mem_cons_self ..)
      simp [List.isPrefixOf, Ne.symm hc]
  unfold joinPath sepOf
  rw [habs]
  by_cases hsep : d.data.isEmpty || strEndsWith d "/"
  · simp only [hsep, if_true, Bool.false_eq_true, if_false, List.append_nil]
  · simp only [hsep, Bool.false_eq_true, if_false]
    simp

theorem joinPath_inj {d n n' : String} (hn : validName n) (hn' : validName n')
    (h : joinPath d n = joinPath d n') : n = n' := by
  have h1 : (joinPath d n).data = (joinPath d n').data := by rw [h]
  rw [joinPath_data hn, joinPath_data hn'] at h1
  have h2 : n.data = n'.data := List.append_cancel_left h1
  exact congrArg String.mk h2

theorem sepOf_joinPath {d n : String} (hn : validName n) :
    sepOf (joinPath d n) = ['/'] := by
  obtain ⟨hne, hns⟩ := hn
  have hj : (joinPath d n).data = d.data ++ sepOf d ++ n.data :=
    joinPath_data ⟨hne, hns⟩
  have hemp : ((joinPath d n).data.isEmpty : Bool) = false := by
    rw [hj]
    cases hd : n.data with
    | nil => exact absurd hd hne
    | cons c cs => simp [hd]
  have hsuf : strEndsWith (joinPath d n) "/" = false := by
    unfold strEndsWith
    rw [Bool.eq_false_iff]
    intro hc
    have hc2 : ['/'] <:+ (joinPath d n).data := by
      rw [← List.isSuffixOf_iff_suffix]
      exact hc
    obtain ⟨t, ht⟩ := hc2
    have hlast : (joinPath d n).data.getLast? = some '/' := by
      rw [← ht]
      exact List.getLast?_concat ..
    rw [hj, List.getLast?_append_of_ne_nil _ hne] at hlast
    obtain ⟨hne2, hx⟩ :=
      List.mem_getLast?_eq_getLast (show '/' ∈ n.data.getLast? from hlast)
    exact hns (hx ▸ List.getLast_mem hne2)
  unfold sepOf
  rw [hemp, hsuf]
  simp

theorem noSlash_append_inj {xs ys a b : List Char} (hx : '/' ∉ xs)
    (hy : '/' ∉ ys) (h : xs ++ '/' :: a = ys ++ '/' :: b) : xs = ys ∧ a = b := by
  induction xs generalizing ys with
  | nil =>
    cases ys with
    | nil => simpa using h
    | cons y ys' =>
      rw [List.nil_append] at h
      have hy' : y = '/' := (List.cons.injEq .. ▸ h).1.symm
      exact absurd (hy' ▸ List.mem_cons_self ..) hy
  | cons x xs' ihx =>
    cases ys with
    | nil =>
      rw [List.nil_append] at h
      have hx' : x = '/' := (List.cons.injEq .. ▸ h).1
      exact absurd (hx' ▸ List.mem_cons_self ..) hx
    | cons y ys' =>
      have h1 := List.cons.injEq .. ▸ h
      have hx2 : '/' ∉ xs' := fun hc => hx (List.mem_cons_of_mem _ hc)
      have hy2 : '/' ∉ ys' := fun hc => hy (List.mem_cons_of_mem _ hc)
      obtain ⟨he, hrest⟩ := ihx hx2 hy2 h1.2
      exact ⟨by rw [h1.1, he], hrest⟩

/-- Shape of every path in the yields of one directory visit: it extends
the visited directory's path by the name of one of its children, a file
name exactly for the files yielded at this level, a directory name
followed by `/` for everything yielded deeper. -/
theorem walk_shape {cwd : String} {pats : List String} {ih : Bool}
    {rootAbs : String} :
    ∀ (k : Nat) (l : List Entry), sizeOf l ≤ k → Wf l →
      ∀ (dirpath p : String),
      (p ∈ filesAt cwd pats ih rootAbs dirpath l ∨
        p ∈ walkSubdirs cwd pats ih rootAbs dirpath l) →
      ∃ (c : String), '/' ∉ c.data ∧ c.data ≠ [] ∧
        ((Entry.file c ∈ l ∧
            p.data = dirpath.data ++ sepOf dirpath ++ c.data) ∨
          ((∃ sub, Entry.dir c sub ∈ l) ∧
            ∃ t, p.data = dirpath.data ++ sepOf dirpath ++ c.data ++ '/' :: t)) := by
  intro k
  induction k with
  | zero =>
    intro l hl
    exact absurd hl (by cases l <;> simp)
  | succ k ihk =>
    intro l hl hwf dirpath p hor
    rcases hor with hf | hw
    · obtain ⟨n, hmem, _, _, hp⟩ := mem_filesAt.mp hf
      obtain ⟨hne, hns⟩ := hwf.valid _ hmem
      simp only [entryName] at hne hns
      refine ⟨n, hns, hne, Or.inl ⟨hmem, ?_⟩⟩
      rw [hp, joinPath_data ⟨hne, hns⟩]
    · obtain ⟨m, msub, hmem, _, hor'⟩ := mem_walkSubdirs.mp hw
      obtain ⟨hne, hns⟩ := hwf.valid _ hmem
      simp only [entryName] at hne hns
      have h1 := List.sizeOf_lt_of_mem hmem
      have h2 : sizeOf msub ≤ k := by
        have : sizeOf (Entry.dir m msub) = 1 + sizeOf m + sizeOf msub := by simp
        omega
      have hfull : (joinPath dirpath m).data =
          dirpath.data ++ sepOf dirpath ++ m.data := joinPath_data ⟨hne, hns⟩
      have hsep : sepOf (joinPath dirpath m) = ['/'] := sepOf_joinPath ⟨hne, hns⟩
      obtain ⟨c, _, hcne, hcase⟩ :=
        ihk msub h2 (hwf.sub _ _ hmem) (joinPath dirpath m) p hor'
      refine ⟨m, hns, hne, Or.inr ⟨⟨msub, hmem⟩, ?_⟩⟩
      rcases hcase with ⟨_, hpd⟩ | ⟨_, t, hpd⟩
      · refine ⟨c.data, ?_⟩
        rw [hpd, hfull, hsep]
        simp
      · refine ⟨c.data ++ '/' :: t, ?_⟩
        rw [hpd, hfull, hsep]
        simp

theorem filesAt_cons_dir {cwd : String} {pats : List String} {ih : Bool}
    {rootAbs dirpath n : String} {sub rest : List Entry} :
    filesAt cwd pats ih rootAbs dirpath (Entry.dir n sub :: rest) =
      filesAt cwd pats ih rootAbs dirpath rest := by
  unfold filesAt
  rw [List.filterMap_cons]

theorem filesAt_cons_file {cwd : String} {pats : List String} {ih : Bool}
    {rootAbs dirpath n : String} {rest : List Entry} :
    filesAt cwd pats ih rootAbs dirpath (Entry.file n :: rest) =
      (if should_ignore cwd (joinPath dirpath n) pats rootAbs ih then []
       else if strEndsWith n ".py" then [joinPath dirpath n] else []) ++
        filesAt cwd pats ih rootAbs dirpath rest := by
  unfold filesAt
  rw [List.filterMap_cons]
  by_cases hig : should_ignore cwd (joinPath dirpath n) pats rootAbs ih = true
  · simp [hig]
  · rw [Bool.not_eq_true] at hig
    by_cases hpy : strEndsWith n ".py" = true
    · simp [hig, hpy]
    · rw [Bool.not_eq_true] at hpy
      simp [hig, hpy]

theorem filesAt_shape {cwd : String} {pats : List String} {ih : Bool}
    {rootAbs dirpath p : String} {l : List Entry}
    (hval : ∀ e ∈ l, validName (entryName e))
    (hf : p ∈ filesAt cwd pats ih rootAbs dirpath l) :
    ∃ n, Entry.file n ∈ l ∧ '/' ∉ n.data ∧ n.data ≠ [] ∧
      p.data = dirpath.data ++ sepOf dirpath ++ n.data := by
  obtain ⟨n, hmem, _, _, hp⟩ := mem_filesAt.mp hf
  obtain ⟨hne, hns⟩ := hval _ hmem
  simp only [entryName] at hne hns
  exact ⟨n, hmem, hns, hne, by rw [hp, joinPath_data ⟨hne, hns⟩]⟩

theorem walkSubdirs_shape {cwd : String} {pats : List String} {ih : Bool}
    {rootAbs : String} :
    ∀ (k : Nat) (l : List Entry), sizeOf l ≤ k → Wf l →
      ∀ (dirpath p : String), p ∈ walkSubdirs cwd pats ih rootAbs dirpath l →
      ∃ (c : String) (t : List Char), '/' ∉ c.data ∧ c.data ≠ [] ∧
        (∃ sub, Entry.dir c sub ∈ l) ∧
        p.data = dirpath.data ++ sepOf dirpath ++ c.data ++ '/' :: t := by
  intro k
  induction k with
  | zero =>
    intro l hl
    exact absurd hl (by cases l <;> simp)
  | succ k ihk =>
    intro l hl hwf dirpath p hw
    obtain ⟨m, msub, hmem, _, hor'⟩ := mem_walkSubdirs.mp hw
    obtain ⟨hne, hns⟩ := hwf.valid _ hmem
    simp only [entryName] at hne hns
    have h1 := List.sizeOf_lt_of_mem hmem
    have h2 : sizeOf msub ≤ k := by
      have : sizeOf (Entry.dir m msub) = 1 + sizeOf m + sizeOf msub := by simp
      omega
    have hfull : (joinPath dirpath m).data =
        dirpath.data ++ sepOf dirpath ++ m.data := joinPath_data ⟨hne, hns⟩
    have hsep : sepOf (joinPath dirpath m) = ['/'] := sepOf_joinPath ⟨hne, hns⟩
    rcases hor' with hfm | hwm
    · obtain ⟨n', _, _, _, hpd⟩ := filesAt_shape (hwf.sub _ _ hmem).valid hfm
      refine ⟨m, n'.data, hns, hne, ⟨msub, hmem⟩, ?_⟩
      rw [hpd, hfull, hsep]
      simp
    · obtain ⟨c, t, _, _, _, hpd⟩ :=
        ihk msub h2 (hwf.sub _ _ hmem) (joinPath dirpath m) p hwm
      refine ⟨m, c.data ++ '/' :: t, hns, hne, ⟨msub, hmem⟩, ?_⟩
      rw [hpd, hfull, hsep]
      simp


/-- At one directory level, a file yielded directly and a path yielded
from inside a child directory never coincide. -/
theorem filesAt_disjoint_walkSubdirs {cwd : String} {pats : List String}
    {ih : Bool} {rootAbs dirpath : String} {l : List Entry} (hwf : Wf l) :
    ∀ p, p ∈ filesAt cwd pats ih rootAbs dirpath l →
      p ∈ walkSubdirs cwd pats ih rootAbs dirpath l → False := by
  intro p hf hw
  obtain ⟨n, _, hns, _, hpd1⟩ := filesAt_shape hwf.valid hf
  obtain ⟨c, t, _, _, _, hpd2⟩ :=
    walkSubdirs_shape (sizeOf l) l (Nat.le_refl _) hwf dirpath p hw
  have h4 : dirpath.data ++ sepOf dirpath ++ n.data =
      dirpath.data ++ sepOf dirpath ++ (c.data ++ '/' :: t) := by
    rw [← hpd1, hpd2]
    simp [List.append_assoc]
  have h3 : n.data = c.data ++ '/' :: t := List.append_cancel_left h4
  exact hns (h3 ▸ List.mem_append_right _ (List.mem_cons_self ..))

/-- The files yielded directly at one directory level are pairwise
distinct, because sibling names are. -/
theorem filesAt_nodup {cwd : String} {pats : List String} {ih : Bool}
    {rootAbs dirpath : String} :
    ∀ l : List Entry, (l.map entryName).Nodup →
      (∀ e ∈ l, validName (entryName e)) →
      (filesAt cwd pats ih rootAbs dirpath l).Nodup := by
  intro l
  induction l with
  | nil =>
    intro _ _
    simp [filesAt]
  | cons e rest ihl =>
    intro hnodup hval
    have hnodup' : (rest.map entryName).Nodup := by
      rw [List.map_cons, List.nodup_cons] at hnodup
      exact hnodup.2
    have hval' : ∀ x ∈ rest, validName (entryName x) :=
      fun x hx => hval x (List.mem_cons_of_mem _ hx)
    have htail := ihl hnodup' hval'
    cases e with
    | dir m msub =>
      rw [filesAt_cons_dir]
      exact htail
    | file m =>
      rw [filesAt_cons_file]
      by_cases hig : should_ignore cwd (joinPath dirpath m) pats rootAbs ih = true
      · simpa [hig] using htail
      · rw [Bool.not_eq_true] at hig
        by_cases hpy : strEndsWith m ".py" = true
        · rw [hig, hpy]
          simp only [Bool.false_eq_true, if_false, if_true,
            List.singleton_append, List.nodup_cons]
          refine ⟨?_, htail⟩
          intro hcmem
          obtain ⟨m', hmem', _, _, hpeq⟩ := mem_filesAt.mp hcmem
          obtain ⟨hme, hms⟩ : validName m := by
            simpa [entryName] using hval _ (List.mem_cons_self ..)
          obtain ⟨hme', hms'⟩ : validName m' := by
            simpa [entryName] using hval' _ hmem'
          have heqm : m = m' := joinPath_inj ⟨hme, hms⟩ ⟨hme', hms'⟩ hpeq
          rw [List.map_cons, List.nodup_cons] at hnodup
          exact hnodup.1 (by
            rw [show entryName (Entry.file m) = m' from heqm]
            exact List.mem_map.mpr ⟨Entry.file m', hmem', rfl⟩)
        · rw [Bool.not_eq_true] at hpy
          simpa [hig, hpy] using htail

theorem walkSubdirs_nodup {cwd : String} {pats : List String} {ih : Bool}
    {rootAbs : String} :
    ∀ (k : Nat) (l : List Entry), sizeOf l ≤ k → Wf l → ∀ dirpath : String,
      (walkSubdirs cwd pats ih rootAbs dirpath l).Nodup := by
  intro k
  induction k with
  | zero =>
    intro l hl
    exact absurd hl (by cases l <;> simp)
  | succ k ihk =>
    intro l hl hwf dirpath
    cases l with
    | nil => simp [walkSubdirs]
    | cons e rest =>
      have hrest : sizeOf rest ≤ k := by
        have : sizeOf (e :: rest) = 1 + sizeOf e + sizeOf rest := by simp
        have he : 0 < sizeOf e := by cases e <;> simp
        omega
      cases e with
      | file n =>
        rw [walkSubdirs]
        exact ihk rest hrest hwf.tail dirpath
      | dir n sub =>
        rw [walkSubdirs]
        have hsub : sizeOf sub ≤ k := by
          have : sizeOf (Entry.dir n sub :: rest) =
              1 + (1 + sizeOf n + sizeOf sub) + sizeOf rest := by simp
          omega
        have hwsub : Wf sub := hwf.sub _ _ (List.mem_cons_self ..)
        obtain ⟨hne, hns⟩ : validName n := by
          have := hwf.valid _ (List.mem_cons_self ..)
          simpa [entryName] using this
        have hnL : n ∉ rest.map entryName := by
          have := hwf.names_nodup
          rw [List.map_cons, List.nodup_cons] at this
          simpa [entryName] using this.1
        refine List.Nodup.append ?_ (ihk rest hrest hwf.tail dirpath) ?_
        · by_cases hig : should_ignore cwd (joinPath dirpath n) pats rootAbs ih = true
          · rw [if_pos hig]
            exact List.nodup_nil
          · rw [if_neg hig]
            exact List.Nodup.append
              (filesAt_nodup sub hwsub.names_nodup hwsub.valid)
              (ihk sub hsub hwsub _)
              (filesAt_disjoint_walkSubdirs hwsub)
        · intro p hp1 hp2
          have hp1' : p ∈ filesAt cwd pats ih rootAbs (joinPath dirpath n) sub ∨
              p ∈ walkSubdirs cwd pats ih rootAbs (joinPath dirpath n) sub := by
            by_cases hig : should_ignore cwd (joinPath dirpath n) pats rootAbs ih = true
            · rw [if_pos hig] at hp1
              exact absurd hp1 (List.not_mem_nil p)
            · rw [if_neg hig] at hp1
              exact List.mem_append.mp hp1
          have hfull : (joinPath dirpath n).data =
              dirpath.data ++ sepOf dirpath ++ n.data := joinPath_data ⟨hne, hns⟩
          have hsep : sepOf (joinPath dirpath n) = ['/'] := sepOf_joinPath ⟨hne, hns⟩
          have hshape1 : ∃ t : List Char,
              p.data = dirpath.data ++ sepOf dirpath ++ n.data ++ '/' :: t := by
            rcases hp1' with hf | hw
            · obtain ⟨n', _, _, _, hpd⟩ := filesAt_shape hwsub.valid hf
              exact ⟨n'.data, by rw [hpd, hfull, hsep]; simp⟩
            · obtain ⟨c, t, _, _, _, hpd⟩ :=
                walkSubdirs_shape (sizeOf sub) sub (Nat.le_refl _) hwsub _ p hw
              exact ⟨c.data ++ '/' :: t, by rw [hpd, hfull, hsep]; simp⟩
          obtain ⟨t1, hpd1⟩ := hshape1
          obtain ⟨c, t2, hcs, _, ⟨sub', hmem'⟩, hpd2⟩ :=
            walkSubdirs_shape (sizeOf rest) rest (Nat.le_refl _) hwf.tail dirpath p hp2
          have hcn : c ≠ n := by
            intro hcn'
            exact hnL (hcn' ▸ List.mem_map.mpr ⟨Entry.dir c sub', hmem', rfl⟩)
          rw [hpd1] at hpd2
          have h4 : (dirpath.data ++ sepOf dirpath) ++ (n.data ++ '/' :: t1) =
              (dirpath.data ++ sepOf dirpath) ++ (c.data ++ '/' :: t2) := by
            simpa [List.append_assoc] using hpd2
          have h3 : n.data ++ '/' :: t1 = c.data ++ '/' :: t2 :=
            List.append_cancel_left h4
          obtain ⟨heq, _⟩ := noSlash_append_inj hns hcs h3
          exact hcn (congrArg String.mk heq.symm)

/-- Claim C4: for every root, pattern list and hidden flag,
`iter_python_files` yields exactly the paths of files reachable from the
root through directories that `should_ignore` keeps (an ignored directory's
whole subtree is pruned and never visited), where the file itself is kept
and its name ends in `.py` — the content of `YieldSpec` — and, for
well-formed directory contents, each such path is yielded once. -/
theorem C4_iter_python_files_exact (cwd root_path : String)
    (pats : List String) (ih : Bool) (nm : String) (children : List Entry)
    (hwf : Wf children) :
    (∀ p, p ∈ iter_python_files cwd (some (Entry.dir nm children))
        root_path pats ih ↔
      YieldSpec cwd pats ih (abspath cwd root_path) (abspath cwd root_path)
        children p) ∧
    (iter_python_files cwd (some (Entry.dir nm children))
        root_path pats ih).Nodup := by
  have hiter : iter_python_files cwd (some (Entry.dir nm children))
      root_path pats ih =
      filesAt cwd pats ih (abspath cwd root_path) (abspath cwd root_path)
          children ++
        walkSubdirs cwd pats ih (abspath cwd root_path)
          (abspath cwd root_path) children := rfl
  rw [hiter]
  constructor
  · intro p
    rw [List.mem_append]
    exact walk_mem
  · exact List.Nodup.append
      (filesAt_nodup children hwf.names_nodup hwf.valid)
      (walkSubdirs_nodup (sizeOf children) children (Nat.le_refl _) hwf _)
      (filesAt_disjoint_walkSubdirs hwf)

theorem C4_iter_python_files_exact_witness :
    Wf [Entry.file "a.py"] ∧
    ((∀ p, p ∈ iter_python_files "/c" (some (Entry.dir "r" [Entry.file "a.py"]))
        "/r" [] false ↔
      YieldSpec "/c" [] false (abspath "/c" "/r") (abspath "/c" "/r")
        [Entry.file "a.py"] p) ∧
    (iter_python_files "/c" (some (Entry.dir "r" [Entry.file "a.py"]))
        "/r" [] false).Nodup) := by
  have hw : Wf [Entry.file "a.py"] := by
    refine Wf.mk _ (by simp) ?_ ?_
    · intro e he
      rw [List.mem_singleton] at he
      subst he
      exact ⟨by decide, by decide⟩
    · intro dname sub hmem
      rw [List.mem_singleton] at hmem
      exact absurd hmem (by simp)
  exact ⟨hw, C4_iter_python_files_exact "/c" "/r" [] false "r" [Entry.file "a.py"] hw⟩

/-! ## Counting (`count_file_loc` and `count_loc`, `pysloc.py` lines 160-213)

The contents that `open` and the `for raw_line in fh` iteration deliver
are modelled as a function from paths to `List String × Bool`: the list is
the prefix of physical lines the iteration produced before it stopped, and
the flag is `true` when the file was read to its end and `false` when an
`OSError` interrupted it — an `OSError` already on `open` delivers
`([], false)`.  `count_loc` queries the walker for structure and this
function for contents, exactly as the script queries `os.walk` and
`open`. -/

/-- `count_file_loc(path)` from `pysloc.py` lines 160-180: `loc` is
incremented for every delivered line that the classifier accepts.  The
`except OSError` branch only logs — it does not reset `loc` — so the
result counts the delivered lines whether or not the read completed, and a
read that fails after delivering some lines returns the partial count. -/
def count_file_loc (fs : String → List String × Bool) (path : String) : Nat :=
  (fs path).1.foldl (fun loc raw_line =>
    if is_code_line raw_line then loc + 1 else loc) 0

/-- Assignment to a Python `dict`: overwrite in place when the key exists,
append otherwise. -/
def dictInsert (m : List (String × Nat)) (k : String) (v : Nat) :
    List (String × Nat) :=
  if m.any (fun q => q.1 = k) then m.map (fun q => if q.1 = k then (k, v) else q)
  else m ++ [(k, v)]

/-- `count_loc(root_path, per_file, ignore_patterns, include_hidden)` from
`pysloc.py` lines 183-213: fold over the walker's yields, always adding
`count_file_loc` (the `file_loc` local is inlined) into the running total
and recording it in the per-file dict only when `per_file` is set; return
the pair or the bare total accordingly. -/
def count_loc (cwd : String) (fs : String → List String × Bool)
    (fsRoot : Option Entry) (root_path : String) (per_file : Bool)
    (ignore_patterns : List String) (include_hidden : Bool) :
    (List (String × Nat) × Nat) ⊕ Nat :=
  let st := (iter_python_files cwd fsRoot root_path ignore_patterns
      include_hidden).foldl
    (fun (st : List (String × Nat) × Nat) path =>
      (if per_file then dictInsert st.1 path (count_file_loc fs path) else st.1,
        st.2 + count_file_loc fs path))
    ([], 0)
  if per_file then Sum.inl st else Sum.inr st.2

theorem foldl_count_eq_filter_length :
    ∀ (lines : List String) (n : Nat),
      lines.foldl (fun loc raw_line =>
        if is_code_line raw_line then loc + 1 else loc) n =
      n + (lines.filter (fun l => is_code_line l)).length := by
  intro lines
  induction lines with
  | nil => intro n; simp
  | cons l rest ihl =>
    intro n
    rw [List.foldl_cons, List.filter_cons]
    by_cases hc : is_code_line l = true
    · rw [hc, ihl]
      simp
      omega
    · rw [Bool.not_eq_true] at hc
      rw [hc, ihl]
      simp

/-- The running total of the aggregation fold is the accumulator plus the
sum of the per-file counts, for either value of `per_file`. -/
theorem count_fold_total (fs : String → List String × Bool) (pf : Bool) :
    ∀ (paths : List String) (st : List (String × Nat) × Nat),
      (paths.foldl (fun st path =>
        (if pf then dictInsert st.1 path (count_file_loc fs path) else st.1,
          st.2 + count_file_loc fs path)) st).2 =
      st.2 + (paths.map (fun p => count_file_loc fs p)).sum := by
  intro paths
  induction paths with
  | nil => intro st; simp
  | cons p rest ihl =>
    intro st
    rw [List.foldl_cons, ihl]
    simp
    omega

/-- When no yielded path repeats and none is already a key, the
aggregation fold with `per_file` set appends one entry per path. -/
theorem count_fold_per_file (fs : String → List String × Bool) :
    ∀ (paths : List String) (m0 : List (String × Nat)) (t0 : Nat),
      paths.Nodup → (∀ p ∈ paths, ∀ q ∈ m0, q.1 ≠ p) →
      paths.foldl (fun st path =>
        (if true then dictInsert st.1 path (count_file_loc fs path) else st.1,
          st.2 + count_file_loc fs path)) (m0, t0) =
      (m0 ++ paths.map (fun p => (p, count_file_loc fs p)),
        t0 + (paths.map (fun p => count_file_loc fs p)).sum) := by
  intro paths
  induction paths with
  | nil =>
    intro m0 t0 _ _
    simp
  | cons p rest ihl =>
    intro m0 t0 hnd hkeys
    rw [List.foldl_cons]
    have hany : (m0.any (fun q => q.1 = p)) = false := by
      rw [List.any_eq_false]
      intro q hq
      simpa using hkeys p (List.mem_cons_self ..) q hq
    have hstep : (if true then dictInsert m0 p (count_file_loc fs p) else m0,
        t0 + count_file_loc fs p) =
        (m0 ++ [(p, count_file_loc fs p)], t0 + count_file_loc fs p) := by
      rw [if_pos rfl]
      unfold dictInsert
      rw [hany]
      simp
    rw [hstep, ihl]
    · refine Prod.ext ?_ ?_
      · simp
      · simp only [List.map_cons, List.sum_cons]
        omega
    · exact hnd.of_cons
    · intro x hx q hq
      rcases List.mem_append.mp hq with hq1 | hq2
      · exact hkeys x (List.mem_cons_of_mem _ hx) q hq1
      · rw [List.mem_singleton] at hq2
        subst hq2
        intro hc
        simp only at hc
        rw [List.nodup_cons] at hnd
        exact hnd.1 (hc ▸ hx)

theorem iter_python_files_eq_append (cwd root_path : String)
    (pats : List String) (ih : Bool) (nm : String) (children : List Entry) :
    iter_python_files cwd (some (Entry.dir nm children)) root_path pats ih =
      filesAt cwd pats ih (abspath cwd root_path) (abspath cwd root_path)
          children ++
        walkSubdirs cwd pats ih (abspath cwd root_path)
          (abspath cwd root_path) children := rfl

theorem iter_python_files_nodup {cwd root_path : String} {pats : List String}
    {ih : Bool} {nm : String} {children : List Entry} (hwf : Wf children) :
    (iter_python_files cwd (some (Entry.dir nm children))
        root_path pats ih).Nodup := by
  rw [iter_python_files_eq_append]
  exact List.Nodup.append
    (filesAt_nodup children hwf.names_nodup hwf.valid)
    (walkSubdirs_nodup (sizeOf children) children (Nat.le_refl _) hwf _)
    (filesAt_disjoint_walkSubdirs hwf)

/-- Claim C5: for every readable file — one whose read delivers its lines
and completes — `count_file_loc` equals the number of physical lines
classified as code by `is_code_line`; being a `Nat`, it is in particular
non-negative. -/
theorem C5_count_file_loc_counts (fs : String → List String × Bool)
    (path : String) (lines : List String) (h : fs path = (lines, true)) :
    count_file_loc fs path =
      (lines.filter (fun l => is_code_line l)).length := by
  unfold count_file_loc
  rw [h]
  simpa using foldl_count_eq_filter_length lines 0

theorem C5_count_file_loc_counts_witness :
    (fun p => if p = "/r/a.py"
        then (["x = 1", "# only a comment", "", "y = 2  # trailing"], true)
        else ([], false)) "/r/a.py" =
      (["x = 1", "# only a comment", "", "y = 2  # trailing"], true) ∧
    count_file_loc (fun p => if p = "/r/a.py"
        then (["x = 1", "# only a comment", "", "y = 2  # trailing"], true)
        else ([], false)) "/r/a.py" =
      ((["x = 1", "# only a comment", "", "y = 2  # trailing"]).filter
        (fun l => is_code_line l)).length :=
  ⟨rfl, C5_count_file_loc_counts _ "/r/a.py" _ rfl⟩

/-- Claim C9: the total returned with `per_file=False` is exactly the
total component of the pair returned with `per_file=True`; the flag only
selects the shape of the result. -/
theorem C9_per_file_flag_total (cwd : String)
    (fs : String → List String × Bool) (fsRoot : Option Entry)
    (root_path : String) (pats : List String) (ih : Bool) :
    ∃ m t, count_loc cwd fs fsRoot root_path true pats ih = Sum.inl (m, t) ∧
      count_loc cwd fs fsRoot root_path false pats ih = Sum.inr t := by
  have h1 : count_loc cwd fs fsRoot root_path true pats ih =
      Sum.inl ((iter_python_files cwd fsRoot root_path pats ih).foldl
        (fun st path =>
          (if true then dictInsert st.1 path (count_file_loc fs path) else st.1,
            st.2 + count_file_loc fs path)) ([], 0)) := rfl
  have h2 : count_loc cwd fs fsRoot root_path false pats ih =
      Sum.inr (((iter_python_files cwd fsRoot root_path pats ih).foldl
        (fun st path =>
          (if false then dictInsert st.1 path (count_file_loc fs path) else st.1,
            st.2 + count_file_loc fs path)) ([], 0)).2) := rfl
  have h3 := count_fold_total fs true
    (iter_python_files cwd fsRoot root_path pats ih) ([], 0)
  have h4 := count_fold_total fs false
    (iter_python_files cwd fsRoot root_path pats ih) ([], 0)
  refine ⟨((iter_python_files cwd fsRoot root_path pats ih).foldl
      (fun st path =>
        (if true then dictInsert st.1 path (count_file_loc fs path) else st.1,
          st.2 + count_file_loc fs path)) ([], 0)).1,
    ((iter_python_files cwd fsRoot root_path pats ih).foldl
      (fun st path =>
        (if true then dictInsert st.1 path (count_file_loc fs path) else st.1,
          st.2 + count_file_loc fs path)) ([], 0)).2, ?_, ?_⟩
  · rw [h1]
  · rw [h2, h4, h3]

/-- Claim C10: a root that is not an existing directory — nothing on the
filesystem, or a regular file — produces an empty walk, an empty per-file
mapping, and a total of zero. -/
theorem C10_non_directory_root (cwd : String)
    (fs : String → List String × Bool) (root_path : String)
    (pats : List String) (ih : Bool) (fsRoot : Option Entry)
    (h : fsRoot = none ∨ ∃ n, fsRoot = some (Entry.file n)) :
    iter_python_files cwd fsRoot root_path pats ih = [] ∧
    count_loc cwd fs fsRoot root_path true pats ih = Sum.inl ([], 0) ∧
    count_loc cwd fs fsRoot root_path false pats ih = Sum.inr 0 := by
  rcases h with h | ⟨n, h⟩ <;> subst h <;> exact ⟨rfl, rfl, rfl⟩

theorem C10_non_directory_root_witness :
    ((none : Option Entry) = none ∨ ∃ n, (none : Option Entry) = some (Entry.file n)) ∧
    (iter_python_files "/c" none "/r" [] false = [] ∧
      count_loc "/c" (fun _ => ([], false)) none "/r" true [] false = Sum.inl ([], 0) ∧
      count_loc "/c" (fun _ => ([], false)) none "/r" false [] false = Sum.inr 0) :=
  ⟨Or.inl rfl, C10_non_directory_root "/c" (fun _ => ([], false)) "/r" [] false none (Or.inl rfl)⟩

/-- Claim C6: with `per_file=True` and well-formed directory contents,
`count_loc` returns a pair whose mapping has as keys exactly the walker's
yields, each at most once, bound to its `count_file_loc` value (files with
zero countable lines are retained with value 0), and whose total is the
sum of the mapping's values. -/
theorem C6_count_loc_per_file (cwd : String)
    (fs : String → List String × Bool) (root_path : String)
    (pats : List String) (ih : Bool) (nm : String) (children : List Entry)
    (hwf : Wf children) :
    ∃ m total,
      count_loc cwd fs (some (Entry.dir nm children)) root_path true pats ih =
        Sum.inl (m, total) ∧
      (∀ pth, pth ∈ m.map Prod.fst ↔
        pth ∈ iter_python_files cwd (some (Entry.dir nm children))
          root_path pats ih) ∧
      (m.map Prod.fst).Nodup ∧
      (∀ pth v, (pth, v) ∈ m → v = count_file_loc fs pth) ∧
      total = (m.map Prod.snd).sum := by
  have hnd : (iter_python_files cwd (some (Entry.dir nm children))
      root_path pats ih).Nodup := iter_python_files_nodup hwf
  have h1 : count_loc cwd fs (some (Entry.dir nm children))
      root_path true pats ih =
      Sum.inl ((iter_python_files cwd (some (Entry.dir nm children))
        root_path pats ih).foldl
        (fun st path =>
          (if true then dictInsert st.1 path (count_file_loc fs path) else st.1,
            st.2 + count_file_loc fs path)) ([], 0)) := rfl
  rw [count_fold_per_file fs _ [] 0 hnd
    (fun p _ q hq => absurd hq (List.not_mem_nil q))] at h1
  rw [List.nil_append] at h1
  have hkeys : ((iter_python_files cwd (some (Entry.dir nm children))
      root_path pats ih).map
        (fun p => (p, count_file_loc fs p))).map Prod.fst =
      iter_python_files cwd (some (Entry.dir nm children)) root_path pats ih := by
    rw [List.map_map]
    exact List.map_id _
  refine ⟨_, _, h1, ?_, ?_, ?_, ?_⟩
  · intro pth
    rw [hkeys]
  · rw [hkeys]
    exact hnd
  · intro pth v hmem
    obtain ⟨p, _, heq⟩ := List.mem_map.mp hmem
    obtain ⟨he1, he2⟩ := Prod.mk.injEq .. ▸ heq
    rw [← he1, ← he2]
  · rw [List.map_map]
    exact Nat.zero_add _

theorem C6_count_loc_per_file_witness :
    Wf [Entry.file "a.py"] ∧
    ∃ m total,
      count_loc "/c" (fun _ => (["x = 1"], true))
          (some (Entry.dir "r" [Entry.file "a.py"])) "/r" true [] false =
        Sum.inl (m, total) ∧
      (∀ pth, pth ∈ m.map Prod.fst ↔
        pth ∈ iter_python_files "/c" (some (Entry.dir "r" [Entry.file "a.py"]))
          "/r" [] false) ∧
      (m.map Prod.fst).Nodup ∧
      (∀ pth v, (pth, v) ∈ m → v = count_file_loc (fun _ => (["x = 1"], true)) pth) ∧
      total = (m.map Prod.snd).sum := by
  have hw : Wf [Entry.file "a.py"] := by
    refine Wf.mk _ (by simp) ?_ ?_
    · intro e he
      rw [List.mem_singleton] at he
      subst he
      exact ⟨by decide, by decide⟩
    · intro dname sub hmem
      rw [List.mem_singleton] at hmem
      exact absurd hmem (by simp)
  exact ⟨hw, C6_count_loc_per_file "/c" (fun _ => (["x = 1"], true)) "/r" [] false
    "r" [Entry.file "a.py"] hw⟩

/-- Claim C7 counterexample: the claim says every file on which reading
fails with an I/O error yields `count_file_loc = 0`, but `loc` is not
reset in the `except OSError` branch of `pysloc.py` lines 171-180, so a
read that fails after delivering one code line returns the partial count
1, not 0. -/
theorem C7_read_failure_counterexample :
    ((fun _ => ((["x = 1"], false) : List String × Bool)) "/r/a.py").2 = false ∧
    count_file_loc (fun _ => (["x = 1"], false)) "/r/a.py" = 1 ∧
    count_file_loc (fun _ => (["x = 1"], false)) "/r/a.py" ≠ 0 :=
  ⟨rfl, by decide, by decide⟩

/-- Claim C7 as amended: on an I/O failure while opening or reading,
`count_file_loc` returns the number of code lines among the lines
delivered before the failure — 0 exactly when the failure strikes at
`open`, before any line — the scan completes with the file present in the
per-file mapping bound to that partial count, and the failure never
propagates out of `count_loc` (the model is total: the `OSError` is
absorbed inside `count_file_loc`). -/
theorem C7_read_failure_partial_count (cwd : String)
    (fs : String → List String × Bool) (root_path : String)
    (pats : List String) (ih : Bool) (nm : String) (children : List Entry)
    (path : String) (lines : List String) (hwf : Wf children)
    (hmem : path ∈ iter_python_files cwd (some (Entry.dir nm children))
      root_path pats ih)
    (hfail : fs path = (lines, false)) :
    count_file_loc fs path =
      (lines.filter (fun l => is_code_line l)).length ∧
    (lines = [] → count_file_loc fs path = 0) ∧
    ∃ m total,
      count_loc cwd fs (some (Entry.dir nm children)) root_path true pats ih =
        Sum.inl (m, total) ∧
      (path, (lines.filter (fun l => is_code_line l)).length) ∈ m := by
  have hz : count_file_loc fs path =
      (lines.filter (fun l => is_code_line l)).length := by
    unfold count_file_loc
    rw [hfail]
    simpa using foldl_count_eq_filter_length lines 0
  have hnd : (iter_python_files cwd (some (Entry.dir nm children))
      root_path pats ih).Nodup := iter_python_files_nodup hwf
  have h1 : count_loc cwd fs (some (Entry.dir nm children))
      root_path true pats ih =
      Sum.inl ((iter_python_files cwd (some (Entry.dir nm children))
        root_path pats ih).foldl
        (fun st path =>
          (if true then dictInsert st.1 path (count_file_loc fs path) else st.1,
            st.2 + count_file_loc fs path)) ([], 0)) := rfl
  rw [count_fold_per_file fs _ [] 0 hnd
    (fun p _ q hq => absurd hq (List.not_mem_nil q))] at h1
  rw [List.nil_append] at h1
  refine ⟨hz, fun hnil => by rw [hz, hnil]; rfl, _, _, h1, ?_⟩
  have : (path, count_file_loc fs path) ∈
      (iter_python_files cwd (some (Entry.dir nm children))
        root_path pats ih).map (fun p => (p, count_file_loc fs p)) :=
    List.mem_map.mpr ⟨path, hmem, rfl⟩
  rwa [hz] at this

theorem C7_read_failure_partial_count_witness :
    Wf [Entry.file "a.py"] ∧
    joinPath (abspath "/c" "/r") "a.py" ∈
      iter_python_files "/c" (some (Entry.dir "r" [Entry.file "a.py"]))
        "/r" [] false ∧
    (fun _ => (([], false) : List String × Bool))
      (joinPath (abspath "/c" "/r") "a.py") = ([], false) ∧
    (count_file_loc (fun _ => ([], false))
        (joinPath (abspath "/c" "/r") "a.py") =
      (([] : List String).filter (fun l => is_code_line l)).length ∧
    (([] : List String) = [] → count_file_loc (fun _ => ([], false))
        (joinPath (abspath "/c" "/r") "a.py") = 0) ∧
    ∃ m total,
      count_loc "/c" (fun _ => ([], false))
          (some (Entry.dir "r" [Entry.file "a.py"])) "/r" true [] false =
        Sum.inl (m, total) ∧
        (joinPath (abspath "/c" "/r") "a.py",
          (([] : List String).filter (fun l => is_code_line l)).length) ∈ m) := by
  have hw : Wf [Entry.file "a.py"] := by
    refine Wf.mk _ (by simp) ?_ ?_
    · intro e he
      rw [List.mem_singleton] at he
      subst he
      exact ⟨by decide, by decide⟩
    · intro dname sub hmem
      rw [List.mem_singleton] at hmem
      exact absurd hmem (by simp)
  have hmem : joinPath (abspath "/c" "/r") "a.py" ∈
      iter_python_files "/c" (some (Entry.dir "r" [Entry.file "a.py"]))
        "/r" [] false := by
    rw [iter_python_files_eq_append]
    refine List.mem_append_left _ (mem_filesAt.mpr ⟨"a.py", List.mem_singleton.mpr rfl, ?_, ?_, rfl⟩)
    · simp [should_ignore, basename, splitSlash, strStartsWith, List.isPrefixOf]
    · decide
  exact ⟨hw, hmem, rfl,
    C7_read_failure_partial_count "/c" (fun _ => ([], false)) "/r" [] false "r"
      [Entry.file "a.py"] (joinPath (abspath "/c" "/r") "a.py") [] hw hmem rfl⟩

theorem should_ignore_perm {pats₁ pats₂ : List String}
    (hperm : pats₁.Perm pats₂) (cwd path root_path : String) (ih : Bool) :
    should_ignore cwd path pats₁ root_path ih =
      should_ignore cwd path pats₂ root_path ih := by
  have hiff : (should_ignore cwd path pats₁ root_path ih = true) ↔
      (should_ignore cwd path pats₂ root_path ih = true) := by
    rw [should_ignore_iff, should_ignore_iff]
    constructor
    · rintro (h | ⟨pattern, hp, rest⟩)
      · exact Or.inl h
      · exact Or.inr ⟨pattern, hperm.mem_iff.mp hp, rest⟩
    · rintro (h | ⟨pattern, hp, rest⟩)
      · exact Or.inl h
      · exact Or.inr ⟨pattern, hperm.mem_iff.mpr hp, rest⟩
  cases ha : should_ignore cwd path pats₁ root_path ih <;>
      cases hb : should_ignore cwd path pats₂ root_path ih <;>
    first
      | rfl
      | (rw [ha, hb] at hiff; simp at hiff)

theorem filesAt_congr {cwd rootAbs : String} {ih : Bool}
    {pats₁ pats₂ : List String}
    (h : ∀ path, should_ignore cwd path pats₁ rootAbs ih =
      should_ignore cwd path pats₂ rootAbs ih) :
    ∀ (dirpath : String) (l : List Entry),
      filesAt cwd pats₁ ih rootAbs dirpath l =
        filesAt cwd pats₂ ih rootAbs dirpath l := by
  intro dirpath l
  induction l with
  | nil => rfl
  | cons e rest ihl =>
    cases e with
    | dir n sub => rw [filesAt_cons_dir, filesAt_cons_dir, ihl]
    | file n => rw [filesAt_cons_file, filesAt_cons_file, h, ihl]

theorem walkSubdirs_congr {cwd rootAbs : String} {ih : Bool}
    {pats₁ pats₂ : List String}
    (h : ∀ path, should_ignore cwd path pats₁ rootAbs ih =
      should_ignore cwd path pats₂ rootAbs ih) :
    ∀ (k : Nat) (l : List Entry), sizeOf l ≤ k → ∀ dirpath : String,
      walkSubdirs cwd pats₁ ih rootAbs dirpath l =
        walkSubdirs cwd pats₂ ih rootAbs dirpath l := by
  intro k
  induction k with
  | zero =>
    intro l hl
    exact absurd hl (by cases l <;> simp)
  | succ k ihk =>
    intro l hl dirpath
    cases l with
    | nil => rw [walkSubdirs, walkSubdirs]
    | cons e rest =>
      have hrest : sizeOf rest ≤ k := by
        have : sizeOf (e :: rest) = 1 + sizeOf e + sizeOf rest := by simp
        have he : 0 < sizeOf e := by cases e <;> simp
        omega
      cases e with
      | file n =>
        rw [walkSubdirs, walkSubdirs]
        exact ihk rest hrest dirpath
      | dir n sub =>
        have hsub : sizeOf sub ≤ k := by
          have : sizeOf (Entry.dir n sub :: rest) =
              1 + (1 + sizeOf n + sizeOf sub) + sizeOf rest := by simp
          omega
        rw [walkSubdirs, walkSubdirs, h, filesAt_congr h,
          ihk sub hsub (joinPath dirpath n), ihk rest hrest dirpath]

theorem iter_python_files_congr {cwd root_path : String} {ih : Bool}
    {pats₁ pats₂ : List String} (fsRoot : Option Entry)
    (h : ∀ path, should_ignore cwd path pats₁ (abspath cwd root_path) ih =
      should_ignore cwd path pats₂ (abspath cwd root_path) ih) :
    iter_python_files cwd fsRoot root_path pats₁ ih =
      iter_python_files cwd fsRoot root_path pats₂ ih := by
  cases fsRoot with
  | none => rfl
  | some e =>
    cases e with
    | file n => rfl
    | dir n children =>
      rw [iter_python_files_eq_append, iter_python_files_eq_append,
        filesAt_congr h, walkSubdirs_congr h (sizeOf children) children
          (Nat.le_refl _) (abspath cwd root_path)]

/-- Claim C8: `should_ignore` is invariant under any permutation of the
ignore-pattern list, and consequently so are the walker's output and the
result of `count_loc`. -/
theorem C8_pattern_order_irrelevant (cwd root_path path : String)
    (ih per_file : Bool) (fs : String → List String × Bool)
    (fsRoot : Option Entry) (pats₁ pats₂ : List String)
    (hperm : pats₁.Perm pats₂) :
    should_ignore cwd path pats₁ root_path ih =
      should_ignore cwd path pats₂ root_path ih ∧
    iter_python_files cwd fsRoot root_path pats₁ ih =
      iter_python_files cwd fsRoot root_path pats₂ ih ∧
    count_loc cwd fs fsRoot root_path per_file pats₁ ih =
      count_loc cwd fs fsRoot root_path per_file pats₂ ih := by
  have hsi : ∀ path, should_ignore cwd path pats₁ (abspath cwd root_path) ih =
      should_ignore cwd path pats₂ (abspath cwd root_path) ih :=
    fun p => should_ignore_perm hperm cwd p (abspath cwd root_path) ih
  have hiter := iter_python_files_congr fsRoot hsi
  refine ⟨should_ignore_perm hperm cwd path root_path ih, hiter, ?_⟩
  unfold count_loc
  rw [hiter]

theorem C8_pattern_order_irrelevant_witness :
    (["a", "b"].Perm ["b", "a"]) ∧
    (should_ignore "/c" "/r/x.py" ["a", "b"] "/r" false =
      should_ignore "/c" "/r/x.py" ["b", "a"] "/r" false ∧
    iter_python_files "/c" (some (Entry.dir "r" [Entry.file "x.py"]))
        "/r" ["a", "b"] false =
      iter_python_files "/c" (some (Entry.dir "r" [Entry.file "x.py"]))
        "/r" ["b", "a"] false ∧
    count_loc "/c" (fun _ => ([], false)) (some (Entry.dir "r" [Entry.file "x.py"]))
        "/r" true ["a", "b"] false =
      count_loc "/c" (fun _ => ([], false)) (some (Entry.dir "r" [Entry.file "x.py"]))
        "/r" true ["b", "a"] false) :=
  ⟨List.Perm.swap "b" "a" [],
    C8_pattern_order_irrelevant "/c" "/r" "/r/x.py" false true (fun _ => ([], false))
      (some (Entry.dir "r" [Entry.file "x.py"])) ["a", "b"] ["b", "a"]
      (List.Perm.swap "b" "a" [])⟩

theorem C2_should_ignore_pattern_match_witness :
    ((true : Bool) = true ∨ strStartsWith (basename "/r/x.py") "." = false) ∧
    (should_ignore "/c" "/r/x.py" ["*.py"] "/r" true = true ↔
      ∃ pattern ∈ ["*.py"],
        ∃ c ∈ candidateForms "/c" (abspath "/c" "/r") pattern,
          formsMatch "/c" (abspath "/c" "/r") "/r/x.py" c = true) :=
  ⟨Or.inl rfl,
    C2_should_ignore_pattern_match "/c" "/r/x.py" "/r" ["*.py"] true (Or.inl rfl)⟩

theorem C3_hidden_rule_witness :
    strStartsWith (basename "/r/.cache") "." = true ∧
    (should_ignore "/c" "/r/.cache" [] "/r" false = true ∧
      (should_ignore "/c" "/r/.cache" [] "/r" true = true ↔
        ∃ pattern ∈ ([] : List String),
          ∃ c ∈ candidateForms "/c" (abspath "/c" "/r") pattern,
            formsMatch "/c" (abspath "/c" "/r") "/r/.cache" c = true)) :=
  ⟨by decide, C3_hidden_rule "/c" "/r/.cache" "/r" [] (by decide)⟩
